import Mathlib

/-!
Verification of the OpenMDAO "blue" core (hschilling/blue-old) against its
specification.  The Python source under `openmdao/core/system.py`,
`openmdao/vectors/vector.py` and `openmdao/components/linear_system_comp.py`
is shallowly embedded below; the theorems at the end of the file settle the
spec claims about name mapping, global index assignment, connection
resolution, the flat-array vector interface, and the dense linear-system
component.
-/

namespace Blue

open Matrix

/-! ### Glob pattern matching

Models Python's `fnmatch.fnmatchcase`, used by `System._get_maps` to match
promotion wildcard patterns: `*` matches any sequence of characters, `?`
matches one character, `[seq]` / `[!seq]` match one character in / not in
`seq` (with `-` ranges); an unclosed `[` stands for a literal `[`.
-/

/-- Scan a character-class body up to the closing `]`.
Returns `(body, rest-after-the-bracket)`, or `none` when the class is
unclosed. -/
def scanBody : List Char → Option (List Char × List Char)
  | [] => none
  | ']' :: rest => some ([], rest)
  | c :: rest =>
    match scanBody rest with
    | some (body, after) => some (c :: body, after)
    | none => none

/-- Split the text following a `[` into the negation flag, the class body,
and the remaining pattern.  Follows `fnmatch.translate`: an optional leading
`!` negates; a `]` directly after `[` (or after `[!`) belongs to the body. -/
def splitClass (cs : List Char) : Option (Bool × List Char × List Char) :=
  let p := match cs with
    | '!' :: rest => (true, rest)
    | _ => (false, cs)
  match p.2 with
  | ']' :: rest =>
    match scanBody rest with
    | some (body, after) => some (p.1, ']' :: body, after)
    | none => none
  | other =>
    match scanBody other with
    | some (body, after) => some (p.1, body, after)
    | none => none

/-- Character-class membership: `a-b` denotes a codepoint range, other
characters denote themselves. -/
def inClass (c : Char) : List Char → Bool
  | a :: '-' :: b :: rest =>
    (decide (a.toNat ≤ c.toNat) && decide (c.toNat ≤ b.toNat)) || inClass c rest
  | a :: rest => (a == c) || inClass c rest
  | [] => false

/-- The glob matcher: first argument is the pattern, second the name. -/
def globMatch : List Char → List Char → Bool
  | [], s => s.isEmpty
  | '*' :: p, s =>
    globMatch p s ||
      (match s with
       | [] => false
       | _ :: s2 => globMatch ('*' :: p) s2)
  | '?' :: p, s =>
    (match s with
     | [] => false
     | _ :: s2 => globMatch p s2)
  | '[' :: p, s =>
    (match splitClass p with
     | some (neg, body, after) =>
       (match s with
        | [] => false
        | c :: s2 => (inClass c body != neg) && globMatch after s2)
     | none =>
       (match s with
        | [] => false
        | c :: s2 => (c == '[') && globMatch p s2))
  | c :: p, s =>
    (match s with
     | [] => false
     | c2 :: s2 => (c == c2) && globMatch p s2)
termination_by p s => (s.length, p.length)
decreasing_by
  all_goals simp_wf
  all_goals first
    | exact Prod.Lex.right _ (Nat.lt_succ_self _)
    | exact Prod.Lex.left _ _ (Nat.lt_succ_self _)

/-- `fnmatchcase name pattern` : does `name` match the glob `pattern`
(case-sensitively)?  Models `fnmatch.fnmatchcase`. -/
def fnmatchcase (name pattern : String) : Bool :=
  globMatch pattern.toList name.toList

/-! ### `System._get_maps` (system.py lines 513-557)

Computes the map from a child system's variable names to the names they get
in the parent's namespace, from the child's promotion sets and renames.
-/

/-- The promotion / rename configuration of one system, for one variable
kind (`typ`): `_variable_promotes['any']`, `_variable_promotes[typ]` and
`_variable_renames[typ]`. -/
structure PromoteSpec where
  promotes_any : List String
  promotes_typ : List String
  renames : List (String × String)

/-- `names` as selected by `_get_maps`: the `'any'` promotion set if
non-empty, else the per-kind promotion set if non-empty, else empty. -/
def selectNames (ps : PromoteSpec) : List String :=
  if ps.promotes_any ≠ [] then ps.promotes_any
  else if ps.promotes_typ ≠ [] then ps.promotes_typ
  else []

/-- `patterns = [n for n in names if '*' in n or '?' in n]`. -/
def selectPatterns (names : List String) : List String :=
  names.filter (fun n => n.toList.contains '*' || n.toList.contains '?')

/-- The parent-namespace name `_get_maps` assigns to one variable `name` of
the child system `sysName`: promotion by exact listing, else promotion by
wildcard match, else rename, else `sysName ++ "." ++ name` (no dot prepended
when the child's name is empty). -/
def mapName (sysName : String) (ps : PromoteSpec) (name : String) : String :=
  let gname := if sysName ≠ "" then sysName ++ "." else ""
  let names := selectNames ps
  let patterns := selectPatterns names
  if name ∈ names then name
  else
    match patterns.find? (fun pat => fnmatchcase name pat) with
    | some _ => name
    | none =>
      match ps.renames.lookup name with
      | some newName => newName
      | none => if gname ≠ "" then gname ++ name else name

/-- `_get_maps`: the association list from each name in the child's global
name list to its parent-namespace name. -/
def get_maps (sysName : String) (ps : PromoteSpec)
    (allprocs_names : List String) : List (String × String) :=
  allprocs_names.map (fun n => (n, mapName sysName ps n))

/-! ### `System._setup_variable_indices` (system.py lines 291-363)

Single-process embedding (`comm.size == 1`, so the multi-process offset
block of lines 319-333 is skipped and `_subsystems_myproc` equals
`_subsystems_allprocs`).  A hierarchy is a tree whose nodes carry the
already-assembled global (allprocs) name lists per kind; the pass threads
the counter dict `index` depth-first and annotates each node with
`_variable_allprocs_range`, `_variable_myproc_indices` and
`_variable_allprocs_indices`.
-/

/-- The `index` argument: one running global counter per variable kind. -/
structure Counters where
  input : Nat
  output : Nat
deriving DecidableEq

/-- A hierarchy node: `_variable_allprocs_names['input']`,
`_variable_allprocs_names['output']`, and the subsystems. -/
inductive VarTree : Type where
  | mk : List String → List String → List VarTree → VarTree

def VarTree.namesIn : VarTree → List String
  | .mk nin _ _ => nin

def VarTree.namesOut : VarTree → List String
  | .mk _ nout _ => nout

def VarTree.children : VarTree → List VarTree
  | .mk _ _ cs => cs

/-- Total input-name count over a list of subsystems. -/
def sumIn (ts : List VarTree) : Nat :=
  (ts.map (fun t => t.namesIn.length)).sum

/-- Total output-name count over a list of subsystems. -/
def sumOut (ts : List VarTree) : Nat :=
  (ts.map (fun t => t.namesOut.length)).sum

/-- Consistency of the name lists as `_setup_variables` produces them: a
composite node's per-kind name count equals the sum of its children's
counts (a group's list is the concatenation of its children's mapped
lists). -/
def sizesOk : VarTree → Bool
  | .mk nin nout cs =>
    (cs.isEmpty ||
      (decide (nin.length = sumIn cs) && decide (nout.length = sumOut cs))) &&
    cs.attach.all (fun s => sizesOk s.1)
termination_by t => sizeOf t
decreasing_by
  have := List.sizeOf_lt_of_mem s.2
  simp only [VarTree.mk.sizeOf_spec]
  omega

/-- The attributes `_setup_variable_indices` computes for one node. -/
structure IndexedNode where
  rangeIn : Nat × Nat
  rangeOut : Nat × Nat
  myprocIn : List Nat
  myprocOut : List Nat
  indicesIn : List (String × Nat)
  indicesOut : List (String × Nat)
deriving DecidableEq

/-- The annotated hierarchy produced by the pass. -/
inductive IndexedTree : Type where
  | mk : IndexedNode → List IndexedTree → IndexedTree

def IndexedTree.node : IndexedTree → IndexedNode
  | .mk nd _ => nd

def IndexedTree.children : IndexedTree → List IndexedTree
  | .mk _ cs => cs

/-- `_variable_allprocs_indices`: each name keyed to
`range[0] + position`. -/
def indicesOf (names : List String) (start : Nat) : List (String × Nat) :=
  names.enum.map (fun p => (p.2, start + p.1))

mutual

/-- `_setup_variable_indices` on one node, single process: set the node's
ranges from the incoming counters and the name-list lengths, recurse into
the children threading the counters, assemble `_variable_myproc_indices`
(concatenation for a group, `arange` over the range for a component), and
reset the outgoing counters to the node's upper bounds. -/
def setupVariableIndices : VarTree → Counters → IndexedTree × Counters
  | .mk nin nout cs, c =>
    let rin : Nat × Nat := (c.input, c.input + nin.length)
    let rout : Nat × Nat := (c.output, c.output + nout.length)
    match cs with
    | [] =>
      (.mk ⟨rin, rout, List.range' rin.1 nin.length, List.range' rout.1 nout.length,
            indicesOf nin rin.1, indicesOf nout rout.1⟩ [],
       ⟨rin.2, rout.2⟩)
    | c0 :: crest =>
      let subs := (setupVariableIndicesList (c0 :: crest) c).1
      (.mk ⟨rin, rout,
            (subs.map (fun s => s.node.myprocIn)).flatten,
            (subs.map (fun s => s.node.myprocOut)).flatten,
            indicesOf nin rin.1, indicesOf nout rout.1⟩ subs,
       ⟨rin.2, rout.2⟩)

/-- The recursion over the subsystem list, threading the counters. -/
def setupVariableIndicesList :
    List VarTree → Counters → List IndexedTree × Counters
  | [], c => ([], c)
  | t :: ts, c =>
    let p := setupVariableIndices t c
    let q := setupVariableIndicesList ts p.2
    (p.1 :: q.1, q.2)

end

/-! ### `System._setup_connections` (system.py lines 365-407)

Single-process embedding of the user-declared-connection loop (lines
385-407): the pairs already gathered from the subsystems come in as
`initPairs` (the recursion of lines 371-383 merely concatenates them on a
single process).  The metadata list `metaIn` is parallel to the local name
list `myprocIn`, as `_setup_variables` builds them.
-/

/-- One `_variable_myproc_metadata['input']` record: the default value,
the shape, and the optional connection source-index selection
(`meta['indices']`, absent until a connection supplies one). -/
structure VarMetadata where
  value : List Rat
  shape : List Nat
  indices : Option (List Int)
deriving DecidableEq

/-- A declared connection: input name, output name, optional source
indices (`_variable_connections` item). -/
abbrev Connection : Type := String × String × Option (List Int)

/-- The attributes of one system that the connection loop reads. -/
structure ConnState where
  conns : List Connection
  initPairs : List (Nat × Nat)
  allIn : List String
  allOut : List String
  rangeInStart : Nat
  rangeOutStart : Nat
  myprocIn : List String
  metaIn : List VarMetadata

/-- Setup-phase error type; `_setup_connections` would use it if it had an
error branch for unresolvable names. -/
inductive SetupError where
  | connectionError : String → String → SetupError
deriving DecidableEq

/-- The body of the `for ip_name, (op_name, src_indices) in ...` loop:
if both names resolve in the global lists, append the global index pair
and, when source indices are supplied and the input is local, overwrite
the local record's `indices` and `shape` fields; otherwise do nothing. -/
def connectionStep (s : ConnState)
    (acc : List (Nat × Nat) × List VarMetadata) (conn : Connection) :
    List (Nat × Nat) × List VarMetadata :=
  let ip_name := conn.1
  let op_name := conn.2.1
  let src_indices := conn.2.2
  if ip_name ∈ s.allIn ∧ op_name ∈ s.allOut then
    let ip_index := s.allIn.indexOf ip_name + s.rangeInStart
    let op_index := s.allOut.indexOf op_name + s.rangeOutStart
    let pairs := acc.1 ++ [(ip_index, op_index)]
    match src_indices with
    | none => (pairs, acc.2)
    | some sel =>
      if ip_name ∈ s.myprocIn then
        let i := s.myprocIn.indexOf ip_name
        match acc.2.get? i with
        | some old =>
          (pairs, acc.2.set i { old with indices := some sel,
                                         shape := [sel.length] })
        | none => (pairs, acc.2)
      else
        (pairs, acc.2)
  else
    acc

/-- `_setup_connections`, single process: fold the loop body over the
declared connections.  The function contains no error branch, so it always
returns `.ok`. -/
def setup_connections (s : ConnState) :
    Except SetupError (List (Nat × Nat) × List VarMetadata) :=
  .ok (s.conns.foldl (connectionStep s) (s.initPairs, s.metaIn))

/-! ### `Vector.get_data` / `Vector.set_data` (vector.py lines 106-138)

The flat-array interface of a vector: `_data` is one array per varset and
`_indices` maps each varset array's positions into the combined flat
array.
-/

/-- numpy fancy assignment `array[idxs] = data`: positions are written
left to right (a repeated index keeps the last value written). -/
def writeAt (array : List Rat) (idxs : List Nat) (data : List Rat) :
    List Rat :=
  (idxs.zip data).foldl (fun a p => a.set p.1 p.2) array

/-- numpy fancy read `array[idxs]`. -/
def readAt (array : List Rat) (idxs : List Nat) : List Rat :=
  idxs.map (fun i => array.getD i 0)

/-- The per-varset storage of one vector: `_data` and `_indices`. -/
structure FlatVector where
  data : List (List Rat)
  indices : List (List Nat)
deriving DecidableEq

/-- `get_data` with `array=None`: allocate a zero array of the combined
size `n` and write every varset's data at its indices. -/
def get_data (v : FlatVector) (n : Nat) : List Rat :=
  (v.data.zip v.indices).foldl (fun a p => writeAt a p.2 p.1)
    (List.replicate n 0)

/-- `set_data`: overwrite each varset array in place with the incoming
combined array read at that varset's indices. -/
def set_data (v : FlatVector) (array : List Rat) : FlatVector :=
  { v with data := (v.data.zip v.indices).map (fun p => readAt array p.2) }

/-- The claim's hypothesis: the per-varset index arrays are pairwise
disjoint. -/
def pairwiseDisjoint (idxs : List (List Nat)) : Prop :=
  idxs.Pairwise (fun a b => ∀ q ∈ a, q ∉ b)

/-! ### `Vector.__contains__` / `__getitem__` / `__setitem__`
(vector.py lines 150-197)

The named-view interface of a vector: `_views` maps names to views,
`_idxs` records whether a name is unwrapped to a scalar (`0`, for size-1
variables) or kept shaped (`slice(None)`), and `_names` is the current
relevance set.
-/

/-- A `_idxs` entry: `0` (size-1 variables read as bare scalars) or
`slice(None)`. -/
inductive Idx where
  | scalar
  | whole
deriving DecidableEq

/-- A value read out of a vector: bare scalar or shaped array. -/
inductive VecValue where
  | scalar : Rat → VecValue
  | arr : List Rat → VecValue
deriving DecidableEq

/-- Errors raised by indexed access: the explicit
`KeyError("Variable '%s' not found.")` of `__getitem__`/`__setitem__`,
or a `KeyError` coming from the `_views`/`_idxs` dict lookup itself. -/
inductive VecError where
  | notFound : String → VecError
  | dictKeyError : String → VecError
deriving DecidableEq

/-- The view state of one vector. -/
structure NamedVector where
  views : List (String × List Rat)
  idxs : List (String × Idx)
  names : List String
deriving DecidableEq

/-- `__contains__`: membership in the current relevance set. -/
def vecContains (v : NamedVector) (key : String) : Bool :=
  key ∈ v.names

/-- `__getitem__`: return `self._views[key][self._idxs[key]]` when the
name is in the relevance set, else raise the not-found error. -/
def vecGetItem (v : NamedVector) (key : String) : Except VecError VecValue :=
  if key ∈ v.names then
    match v.views.lookup key, v.idxs.lookup key with
    | some view, some .scalar => .ok (.scalar (view.getD 0 0))
    | some view, some .whole => .ok (.arr view)
    | _, _ => .error (.dictKeyError key)
  else
    .error (.notFound key)

/-- `__setitem__`: overwrite the view's contents
(`self._views[key][:] = value`) when the name is in the relevance set,
else raise the not-found error; returns the resulting vector and the
raised error, if any. -/
def vecSetItem (v : NamedVector) (key : String) (value : List Rat) :
    NamedVector × Option VecError :=
  if key ∈ v.names then
    match v.views.lookup key with
    | some _ =>
      ({ v with views :=
          v.views.map (fun p => if p.1 = key then (p.1, value) else p) },
       none)
    | none => (v, some (.dictKeyError key))
  else
    (v, some (.notFound key))

/-- `chainRanges lo hi rs`: the ranges `rs` tile `[lo, hi)` consecutively
in list order. -/
def chainRanges : Nat → Nat → List (Nat × Nat) → Prop
  | lo, hi, [] => lo = hi
  | lo, hi, r :: rs => r.1 = lo ∧ chainRanges r.2 hi rs

/-- The hierarchy-wide range invariant: at every composite node, the
children's ranges tile the parent's range consecutively in insertion
order, sibling ranges are pairwise disjoint, and the parent's range is
the union of its children's ranges. -/
inductive GoodRanges : IndexedTree → Prop where
  | mk : ∀ (nd : IndexedNode) (cs : List IndexedTree),
      (cs ≠ [] →
        chainRanges nd.rangeIn.1 nd.rangeIn.2
          (cs.map (fun s => s.node.rangeIn)) ∧
        chainRanges nd.rangeOut.1 nd.rangeOut.2
          (cs.map (fun s => s.node.rangeOut)) ∧
        (cs.map (fun s => s.node.rangeIn)).Pairwise
          (fun a b => Disjoint (Set.Ico a.1 a.2) (Set.Ico b.1 b.2)) ∧
        (cs.map (fun s => s.node.rangeOut)).Pairwise
          (fun a b => Disjoint (Set.Ico a.1 a.2) (Set.Ico b.1 b.2)) ∧
        (⋃ r ∈ cs.map (fun s => s.node.rangeIn), Set.Ico r.1 r.2) =
          Set.Ico nd.rangeIn.1 nd.rangeIn.2 ∧
        (⋃ r ∈ cs.map (fun s => s.node.rangeOut), Set.Ico r.1 r.2) =
          Set.Ico nd.rangeOut.1 nd.rangeOut.2) →
      (∀ s ∈ cs, GoodRanges s) →
      GoodRanges (.mk nd cs)

/-- Structural induction principle for `VarTree` giving the inductive
hypothesis on every child. -/
def VarTree.indOn (P : VarTree → Prop)
    (h : ∀ nin nout cs, (∀ t ∈ cs, P t) → P (.mk nin nout cs)) :
    ∀ t, P t
  | .mk nin nout cs => h nin nout cs (fun t ht => VarTree.indOn P h t)
termination_by t => sizeOf t
decreasing_by
  have := List.sizeOf_lt_of_mem ht
  simp only [VarTree.mk.sizeOf_spec]
  omega

/-! ### `System._setup_variables` with `comm.size > 1` (lines 233-289)

Bottom-up name assembly of one group whose process group spans `P > 1`
processes.  Each rank assembles the mapped names of its resident children
(lines 262-273), the rank-0 representative of each subsystem communicator
contributes them (lines 278-283), and an allgather concatenates the
contributions in rank order on every rank (lines 286-289).
-/

/-- One child subsystem as the group's bottom-up pass sees it: its name,
its promotion/rename configuration for the kind being assembled, and its
global name list for that kind (already identical on all of the child's
own processes, by induction). -/
structure ChildSys where
  name : String
  ps : PromoteSpec
  allprocsNames : List String

/-- `subsys._variable_maps[typ]` applied over
`subsys._variable_allprocs_names[typ]`: the names a child contributes to
its parent's namespace. -/
def mappedNames (ch : ChildSys) : List String :=
  ch.allprocsNames.map (fun nm => mapName ch.name ch.ps nm)

/-- The mapped names of the child at (allprocs) position `i`. -/
def childNames (cs : List ChildSys) (i : Nat) : List String :=
  match cs.get? i with
  | some ch => mappedNames ch
  | none => []

/-- Modelled from the spec: the multi-process layout of one group.  The
process allocator (`openmdao/proc_allocators/proc_allocator.py`) is not in
the source tree and the communicator is the assumed-correct collective
primitive, so both are modelled from the spec: `P` is the group's
communicator size, `myproc r` lists the indices of the children resident
on rank `r` (`_subsystems_inds`), and `subRank r` is rank `r`'s rank
within its subsystem communicator (`sub_comm.rank`). -/
structure DistGroup where
  P : Nat
  children : List ChildSys
  myproc : Nat → List Nat
  subRank : Nat → Nat

/-- The names rank `r` assembles from its resident children
(lines 262-273), in child-insertion order. -/
def localNames (g : DistGroup) (r : Nat) : List String :=
  ((g.myproc r).map (childNames g.children)).flatten

/-- Modelled from the spec: `comm.allgather` — every rank receives every
rank's value, in rank order; the collective is assumed correct, so the
gathered list is the same on every rank by construction. -/
def allgather (P : Nat) (f : Nat → List String) : List (List String) :=
  (List.range P).map f

/-- The contribution of rank `r` (lines 278-283): the representative with
`sub_comm.rank == 0` contributes the names it assembled, every other rank
contributes an empty list. -/
def rankContribution (g : DistGroup) (r : Nat) : List String :=
  if g.subRank r = 0 then localNames g r else []

/-- The final `_variable_allprocs_names[typ]` as computed on rank `r`
(lines 286-289): allgather the contributions and concatenate them. -/
def setupVariablesNames (g : DistGroup) (r : Nat) : List String :=
  let raw := allgather g.P (fun q => rankContribution g q)
  raw.flatten

/-- Modelled from the spec: the allocator guarantee that makes the
gathered list complete — taking the contributing ranks in rank order,
their resident child-index lists concatenate to `[0, ..., nchildren)`:
each child is contributed exactly once, in insertion order. -/
def partitionOk (g : DistGroup) : Prop :=
  (((List.range g.P).filter (fun r => g.subRank r = 0)).map g.myproc).flatten
    = List.range g.children.length

/-! ### `LinearSystemComp` (components/linear_system_comp.py)

The dense linear-system component `A·x = b`: residual evaluation, the
factorized primary solve, the matrix-free forward/reverse
Jacobian-vector-product operator, and derivative back-substitution.
Arithmetic is embedded exactly over `ℚ`.
-/

/-- Derivative mode flag (`'fwd'` / `'rev'`). -/
inductive Mode where
  | fwd
  | rev
deriving DecidableEq

/-- The vectors `_mat_vec_prod` (lines 138-177) reads and writes:
`inputs['A']`, `outputs['x']`, the seed vectors `d_inputs['A']`,
`d_inputs['b']`, `d_outputs['x']`, `d_residuals['x']`, and the relevance
membership flags `'x' in d_outputs`, `'A' in d_inputs`,
`'b' in d_inputs`. -/
structure MatVecSeeds (n : ℕ) where
  A : Matrix (Fin n) (Fin n) ℚ
  x : Fin n → ℚ
  dA : Matrix (Fin n) (Fin n) ℚ
  db : Fin n → ℚ
  dx : Fin n → ℚ
  dr : Fin n → ℚ
  hasX : Bool
  hasA : Bool
  hasB : Bool

/-- `_mat_vec_prod`: forward mode accumulates
`d_residuals['x'] += A·dx + dA·x − db` (only seeded terms); reverse mode
accumulates `d_outputs['x'] += Aᵀ·dr`, `d_inputs['A'] += outer(x, dr)ᵀ`,
`d_inputs['b'] −= dr`. -/
def mat_vec_prod {n : ℕ} (s : MatVecSeeds n) (mode : Mode) : MatVecSeeds n :=
  match mode with
  | .fwd =>
    let dr1 := if s.hasX then s.dr + s.A.mulVec s.dx else s.dr
    let dr2 := if s.hasA then dr1 + s.dA.mulVec s.x else dr1
    let dr3 := if s.hasB then dr2 - s.db else dr2
    { s with dr := dr3 }
  | .rev =>
    let dx1 := if s.hasX then s.dx + s.Aᵀ.mulVec s.dr else s.dx
    let dA1 := if s.hasA then s.dA + (Matrix.vecMulVec s.x s.dr)ᵀ else s.dA
    let db1 := if s.hasB then s.db - s.dr else s.db
    { s with dx := dx1, dA := dA1, db := db1 }

/-- Modelled from the spec: `scipy.linalg.lu_factor` is an external
library routine (not part of this repository); the cached factorization
object is modelled as carrying the factorized matrix. -/
structure LUFactorization (n : ℕ) where
  mat : Matrix (Fin n) (Fin n) ℚ

/-- Modelled from the spec: caching the factorization of `A`. -/
def lu_factor {n : ℕ} (A : Matrix (Fin n) (Fin n) ℚ) : LUFactorization n :=
  ⟨A⟩

/-- Modelled from the spec: `scipy.linalg.lu_solve(lup, b, trans=t)`
returns the solution of `A·x = b` (t = 0) or `Aᵀ·x = b` (t = 1) for the
factorized matrix `A`; over exact arithmetic the solution of an
invertible system is `det(M)⁻¹ • adjugate(M)·b`. -/
def lu_solve {n : ℕ} (lup : LUFactorization n) (b : Fin n → ℚ)
    (trans : ℕ) : Fin n → ℚ :=
  let M := if trans = 0 then lup.mat else lup.matᵀ
  (M.det)⁻¹ • (M.adjugate.mulVec b)

/-- The state of one `LinearSystemComp`: inputs `A` and `b`, output `x`,
and the cached factorization `_lup` (initially `None`). -/
structure LinSysComp (n : ℕ) where
  A : Matrix (Fin n) (Fin n) ℚ
  b : Fin n → ℚ
  x : Fin n → ℚ
  lup : Option (LUFactorization n)

/-- `apply_nonlinear` (lines 78-91): `R = A·x − b`. -/
def apply_nonlinear {n : ℕ} (c : LinSysComp n) : Fin n → ℚ :=
  c.A.mulVec c.x - c.b

/-- `solve_nonlinear` (lines 93-106): factorize `A`, cache the
factorization, and solve for `x`. -/
def solve_nonlinear {n : ℕ} (c : LinSysComp n) : LinSysComp n :=
  let lup := lu_factor c.A
  { c with lup := some lup, x := lu_solve lup c.b 0 }

/-- The derivative vectors `solve_linear` reads and writes. -/
structure LinearData (n : ℕ) where
  d_outputs : Fin n → ℚ
  d_residuals : Fin n → ℚ

/-- `solve_linear` (lines 179-206): pick the solution and right-hand-side
vectors and the transpose flag from the mode, then back-substitute with
the cached factorization (`None` means no prior `solve_nonlinear`; the
underlying solver would fail). -/
def solve_linear {n : ℕ} (c : LinSysComp n) (d : LinearData n)
    (mode : Mode) : Option (LinSysComp n × LinearData n) :=
  match c.lup with
  | none => none
  | some lup =>
    match mode with
    | .fwd => some (c, { d with d_outputs := lu_solve lup d.d_residuals 0 })
    | .rev => some (c, { d with d_residuals := lu_solve lup d.d_outputs 1 })

/-! ### Theorems -/

/-- The counters returned by `_setup_variable_indices` are exactly the
node's upper bounds (the reset of lines 353-356). -/
theorem setupVariableIndices_counters (t : VarTree) (c : Counters) :
    (setupVariableIndices t c).2 =
      ⟨c.input + t.namesIn.length, c.output + t.namesOut.length⟩ := by
  cases t with
  | mk nin nout cs =>
    cases cs with
    | nil => simp [setupVariableIndices, VarTree.namesIn, VarTree.namesOut]
    | cons c0 crest =>
      simp [setupVariableIndices, VarTree.namesIn, VarTree.namesOut]

/-- The node's ranges are `[counter, counter + name-count)` per kind. -/
theorem setupVariableIndices_range (t : VarTree) (c : Counters) :
    (setupVariableIndices t c).1.node.rangeIn =
      (c.input, c.input + t.namesIn.length) ∧
    (setupVariableIndices t c).1.node.rangeOut =
      (c.output, c.output + t.namesOut.length) := by
  cases t with
  | mk nin nout cs =>
    cases cs with
    | nil =>
      simp [setupVariableIndices, IndexedTree.node, VarTree.namesIn,
        VarTree.namesOut]
    | cons c0 crest =>
      simp [setupVariableIndices, IndexedTree.node, VarTree.namesIn,
        VarTree.namesOut]

/-- Every annotated subtree in the list pass comes from running the pass on
one of the subsystems at some counter value. -/
theorem mem_setupVariableIndicesList (ts : List VarTree) (c : Counters) :
    ∀ s ∈ (setupVariableIndicesList ts c).1,
      ∃ t ∈ ts, ∃ c2, s = (setupVariableIndices t c2).1 := by
  induction ts generalizing c with
  | nil =>
    intro s hs
    simp [setupVariableIndicesList] at hs
  | cons t ts ih =>
    intro s hs
    simp only [setupVariableIndicesList] at hs
    rcases List.mem_cons.mp hs with h | h
    · exact ⟨t, List.mem_cons_self t ts, c, h⟩
    · obtain ⟨t2, ht2, c2, h2⟩ := ih _ s h
      exact ⟨t2, List.mem_cons_of_mem _ ht2, c2, h2⟩

/-- The input ranges of the annotated subsystems tile
`[c.input, c.input + sumIn ts)` consecutively in insertion order. -/
theorem chainRanges_setupList_in (ts : List VarTree) (c : Counters) :
    chainRanges c.input (c.input + sumIn ts)
      ((setupVariableIndicesList ts c).1.map (fun s => s.node.rangeIn)) := by
  induction ts generalizing c with
  | nil => simp [setupVariableIndicesList, chainRanges, sumIn]
  | cons t ts ih =>
    simp only [setupVariableIndicesList, List.map_cons]
    have hr := (setupVariableIndices_range t c).1
    have hc2 := setupVariableIndices_counters t c
    refine ⟨by rw [hr], ?_⟩
    rw [hr, hc2]
    have hsum : c.input + sumIn (t :: ts) =
        (c.input + t.namesIn.length) + sumIn ts := by
      simp [sumIn]
      omega
    rw [hsum]
    exact ih ⟨c.input + t.namesIn.length, c.output + t.namesOut.length⟩

/-- The output ranges of the annotated subsystems tile
`[c.output, c.output + sumOut ts)` consecutively in insertion order. -/
theorem chainRanges_setupList_out (ts : List VarTree) (c : Counters) :
    chainRanges c.output (c.output + sumOut ts)
      ((setupVariableIndicesList ts c).1.map (fun s => s.node.rangeOut)) := by
  induction ts generalizing c with
  | nil => simp [setupVariableIndicesList, chainRanges, sumOut]
  | cons t ts ih =>
    simp only [setupVariableIndicesList, List.map_cons]
    have hr := (setupVariableIndices_range t c).2
    have hc2 := setupVariableIndices_counters t c
    refine ⟨by rw [hr], ?_⟩
    rw [hr, hc2]
    have hsum : c.output + sumOut (t :: ts) =
        (c.output + t.namesOut.length) + sumOut ts := by
      simp [sumOut]
      omega
    rw [hsum]
    exact ih ⟨c.input + t.namesIn.length, c.output + t.namesOut.length⟩

/-- A chain of well-formed ranges has its lower bound below its upper. -/
theorem chainRanges_le (rs : List (Nat × Nat)) :
    ∀ lo hi, chainRanges lo hi rs → (∀ r ∈ rs, r.1 ≤ r.2) → lo ≤ hi := by
  induction rs with
  | nil =>
    intro lo hi h _
    simp [chainRanges] at h
    omega
  | cons r rs ih =>
    intro lo hi h hr
    obtain ⟨h1, h2⟩ := h
    have hle := ih r.2 hi h2 (fun x hx => hr x (List.mem_cons_of_mem _ hx))
    have := hr r (List.mem_cons_self r rs)
    omega

/-- Every range in a chain starts at or after the chain's lower bound. -/
theorem chainRanges_lower (rs : List (Nat × Nat)) :
    ∀ lo hi, chainRanges lo hi rs → (∀ r ∈ rs, r.1 ≤ r.2) →
      ∀ b ∈ rs, lo ≤ b.1 := by
  induction rs with
  | nil =>
    intro lo hi _ _ b hb
    simp at hb
  | cons r rs ih =>
    intro lo hi h hr b hb
    obtain ⟨h1, h2⟩ := h
    rcases List.mem_cons.mp hb with h3 | h3
    · subst h3
      omega
    · have := ih r.2 hi h2 (fun x hx => hr x (List.mem_cons_of_mem _ hx)) b h3
      have := hr r (List.mem_cons_self r rs)
      omega

/-- The union of a chain of well-formed ranges is the full interval. -/
theorem chainRanges_union (rs : List (Nat × Nat)) :
    ∀ lo hi, chainRanges lo hi rs → (∀ r ∈ rs, r.1 ≤ r.2) →
      (⋃ r ∈ rs, Set.Ico r.1 r.2) = Set.Ico lo hi := by
  induction rs with
  | nil =>
    intro lo hi h _
    simp [chainRanges] at h
    simp [h]
  | cons r rs ih =>
    intro lo hi h hr
    obtain ⟨h1, h2⟩ := h
    have hru := ih r.2 hi h2 (fun x hx => hr x (List.mem_cons_of_mem _ hx))
    have hhead := hr r (List.mem_cons_self r rs)
    have hhi := chainRanges_le rs r.2 hi h2
      (fun x hx => hr x (List.mem_cons_of_mem _ hx))
    simp only [List.mem_cons, Set.iUnion_iUnion_eq_or_left]
    rw [hru, h1]
    exact Set.Ico_union_Ico_eq_Ico (h1 ▸ hhead) hhi

/-- Distinct ranges of a chain are pairwise disjoint. -/
theorem chainRanges_pairwise (rs : List (Nat × Nat)) :
    ∀ lo hi, chainRanges lo hi rs → (∀ r ∈ rs, r.1 ≤ r.2) →
      rs.Pairwise (fun a b => Disjoint (Set.Ico a.1 a.2) (Set.Ico b.1 b.2)) := by
  induction rs with
  | nil => intro lo hi _ _; exact .nil
  | cons r rs ih =>
    intro lo hi h hr
    obtain ⟨h1, h2⟩ := h
    refine List.Pairwise.cons ?_
      (ih r.2 hi h2 (fun x hx => hr x (List.mem_cons_of_mem _ hx)))
    intro b hb
    have hlb := chainRanges_lower rs r.2 hi h2
      (fun x hx => hr x (List.mem_cons_of_mem _ hx)) b hb
    rw [Set.disjoint_left]
    intro x hx hx2
    rw [Set.mem_Ico] at hx hx2
    omega

/-- `sizesOk` unpacked. -/
theorem sizesOk_iff (nin nout : List String) (cs : List VarTree) :
    sizesOk (.mk nin nout cs) = true ↔
      ((cs ≠ [] → nin.length = sumIn cs ∧ nout.length = sumOut cs) ∧
       ∀ t ∈ cs, sizesOk t = true) := by
  rw [sizesOk]
  simp only [Bool.and_eq_true, Bool.or_eq_true, List.isEmpty_iff,
    decide_eq_true_eq, List.all_eq_true, List.mem_attach, true_implies]
  constructor
  · rintro ⟨h1, h2⟩
    constructor
    · intro hne
      rcases h1 with h1 | h1
      · exact absurd h1 hne
      · exact h1
    · intro t ht
      exact h2 ⟨t, ht⟩
  · rintro ⟨h1, h2⟩
    constructor
    · by_cases hne : cs = []
      · exact Or.inl hne
      · exact Or.inr (h1 hne)
    · intro s
      exact h2 s.1 s.2

/-- A leaf node's name lists are always consistent. -/
theorem sizesOk_leaf (nin nout : List String) :
    sizesOk (.mk nin nout []) = true := by
  rw [sizesOk_iff]
  exact ⟨fun h => absurd rfl h, fun t ht => by simp at ht⟩

/-- Hierarchy-wide range invariants hold for the tree produced by the
single-process index-assignment pass, when the name lists are consistent. -/
theorem setupVariableIndices_good :
    ∀ t : VarTree, ∀ c : Counters, sizesOk t = true →
      GoodRanges (setupVariableIndices t c).1 := by
  refine VarTree.indOn _ ?_
  intro nin nout cs IH c hwf
  obtain ⟨hsz, hall⟩ := (sizesOk_iff nin nout cs).mp hwf
  cases cs with
  | nil =>
    simp only [setupVariableIndices]
    exact GoodRanges.mk _ _ (fun h => absurd rfl h) (fun s hs => by simp at hs)
  | cons c0 crest =>
    simp only [setupVariableIndices]
    refine GoodRanges.mk _ _ ?_ ?_
    · intro _
      have hch_in := chainRanges_setupList_in (c0 :: crest) c
      have hch_out := chainRanges_setupList_out (c0 :: crest) c
      have hsizes := hsz (by simp)
      have hr_le : ∀ r ∈ ((setupVariableIndicesList (c0 :: crest) c).1.map
          (fun s => s.node.rangeIn)), r.1 ≤ r.2 := by
        intro r hr
        obtain ⟨s, hs, hrs⟩ := List.mem_map.mp hr
        obtain ⟨t2, _, c2, h2⟩ :=
          mem_setupVariableIndicesList (c0 :: crest) c s hs
        subst h2
        rw [← hrs, (setupVariableIndices_range t2 c2).1]
        exact Nat.le_add_right _ _
      have hr_le_out : ∀ r ∈ ((setupVariableIndicesList (c0 :: crest) c).1.map
          (fun s => s.node.rangeOut)), r.1 ≤ r.2 := by
        intro r hr
        obtain ⟨s, hs, hrs⟩ := List.mem_map.mp hr
        obtain ⟨t2, _, c2, h2⟩ :=
          mem_setupVariableIndicesList (c0 :: crest) c s hs
        subst h2
        rw [← hrs, (setupVariableIndices_range t2 c2).2]
        exact Nat.le_add_right _ _
      refine ⟨?_, ?_, ?_, ?_, ?_, ?_⟩
      · simpa [IndexedTree.node, hsizes.1] using hch_in
      · simpa [IndexedTree.node, hsizes.2] using hch_out
      · exact chainRanges_pairwise _ _ _ hch_in hr_le
      · exact chainRanges_pairwise _ _ _ hch_out hr_le_out
      · simpa [IndexedTree.node, hsizes.1] using
          chainRanges_union _ _ _ hch_in hr_le
      · simpa [IndexedTree.node, hsizes.2] using
          chainRanges_union _ _ _ hch_out hr_le_out
    · intro s hs
      obtain ⟨t2, ht2, c2, h2⟩ :=
        mem_setupVariableIndicesList (c0 :: crest) c s hs
      subst h2
      exact IH t2 ht2 c2 (hall t2 ht2)

/-- A nonempty string followed by "." is nonempty. -/
theorem append_dot_ne_empty (s : String) : s ++ "." ≠ "" := by
  intro h
  have h2 := congrArg String.length h
  simp [String.length_append] at h2
  exact absurd h2.2 (by decide)

/-- C1: name-mapping precedence in `_get_maps`.  For every variable name in
a child's global name list, the map contains an entry for it, and the
parent-namespace name is computed by trying, in order: (1) exact listing in
the promotion set keeps the name unchanged; (2) else a wildcard promotion
match keeps the name unchanged; (3) else a registered rename is used;
(4) else the child's name plus "." is prepended.  In particular an
exact-name promotion always wins over a conflicting rename. -/
theorem C1_name_mapping_precedence (sysName : String) (ps : PromoteSpec)
    (allNames : List String) (name : String)
    (hname : name ∈ allNames) (hchild : sysName ≠ "") :
    ((name, mapName sysName ps name) ∈ get_maps sysName ps allNames) ∧
    (name ∈ selectNames ps → mapName sysName ps name = name) ∧
    (name ∉ selectNames ps →
      (selectPatterns (selectNames ps)).any (fun p => fnmatchcase name p) = true →
      mapName sysName ps name = name) ∧
    (∀ tgt, name ∉ selectNames ps →
      (∀ p ∈ selectPatterns (selectNames ps), fnmatchcase name p = false) →
      ps.renames.lookup name = some tgt →
      mapName sysName ps name = tgt) ∧
    (name ∉ selectNames ps →
      (∀ p ∈ selectPatterns (selectNames ps), fnmatchcase name p = false) →
      ps.renames.lookup name = none →
      mapName sysName ps name = sysName ++ "." ++ name) ∧
    (∀ tgt, ps.renames.lookup name = some tgt → name ∈ selectNames ps →
      mapName sysName ps name = name) := by
  refine ⟨?_, ?_, ?_, ?_, ?_, ?_⟩
  · simp only [get_maps]
    exact List.mem_map_of_mem _ hname
  · intro h
    simp [mapName, h]
  · intro h hpat
    rw [List.any_eq_true] at hpat
    obtain ⟨p, hp, hmatch⟩ := hpat
    have hfind : ((selectPatterns (selectNames ps)).find?
        (fun pat => fnmatchcase name pat)).isSome := by
      rw [List.find?_isSome]
      exact ⟨p, hp, hmatch⟩
    simp only [mapName, if_neg h]
    rcases hf : (selectPatterns (selectNames ps)).find?
        (fun pat => fnmatchcase name pat) with _ | v
    · rw [hf] at hfind
      simp at hfind
    · rfl
  · intro tgt h hpat hren
    have hfind : (selectPatterns (selectNames ps)).find?
        (fun pat => fnmatchcase name pat) = none := by
      rw [List.find?_eq_none]
      intro p hp
      simp [hpat p hp]
    simp [mapName, if_neg h, hfind, hren]
  · intro h hpat hren
    have hfind : (selectPatterns (selectNames ps)).find?
        (fun pat => fnmatchcase name pat) = none := by
      rw [List.find?_eq_none]
      intro p hp
      simp [hpat p hp]
    simp only [mapName, if_neg h, hfind, hren]
    rw [if_pos hchild, if_pos (append_dot_ne_empty sysName)]
  · intro tgt _ h
    simp [mapName, h]

/-- Witness for C1: child "sub" promotes "a" exactly while also registering
a rename "a" ↦ "b"; the promotion wins and "a" is kept unchanged. -/
theorem C1_name_mapping_precedence_witness :
    mapName "sub" ⟨["a"], [], [("a", "b")]⟩ "a" = "a" :=
  (C1_name_mapping_precedence "sub" ⟨["a"], [], [("a", "b")]⟩ ["a"] "a"
    (by decide) (by decide)).2.2.2.2.2 "b" (by decide) (by decide)

/-- C10: in `_get_maps`, when the `'any'` promotion set is non-empty, the
per-kind promotion set is never consulted: a variable listed only in the
per-kind set (and matching nothing in the `'any'` set) falls through to the
rename or default child-prefix mapping. -/
theorem C10_perkind_promotes_ignored (sysName : String) (ps : PromoteSpec)
    (name : String)
    (hany : ps.promotes_any ≠ [])
    (_htyp : name ∈ ps.promotes_typ)
    (hnot : name ∉ ps.promotes_any)
    (hnopat : ∀ p ∈ selectPatterns ps.promotes_any, fnmatchcase name p = false) :
    mapName sysName ps name =
      match ps.renames.lookup name with
      | some tgt => tgt
      | none => if sysName ≠ "" then sysName ++ "." ++ name else name := by
  have hsel : selectNames ps = ps.promotes_any := by
    simp [selectNames, hany]
  have hfind : (selectPatterns (selectNames ps)).find?
      (fun pat => fnmatchcase name pat) = none := by
    rw [List.find?_eq_none]
    intro p hp
    rw [hsel] at hp
    simp [hnopat p hp]
  have hmem : name ∉ selectNames ps := by
    rw [hsel]; exact hnot
  simp only [mapName, if_neg hmem, hfind]
  rcases hren : ps.renames.lookup name with _ | tgt
  · by_cases hs : sysName = ""
    · simp [hs]
    · have : (if sysName ≠ "" then sysName ++ "." else "") = sysName ++ "." := by
        rw [if_pos hs]
      simp only [this, if_pos (append_dot_ne_empty sysName)]
      rw [if_pos hs]
  · rfl

/-- The pairs component of the loop body: a resolvable connection appends
its global index pair, an unresolvable one appends nothing. -/
theorem connectionStep_fst (s : ConnState)
    (acc : List (Nat × Nat) × List VarMetadata) (conn : Connection) :
    (connectionStep s acc conn).1 =
      if conn.1 ∈ s.allIn ∧ conn.2.1 ∈ s.allOut then
        acc.1 ++ [(s.allIn.indexOf conn.1 + s.rangeInStart,
                   s.allOut.indexOf conn.2.1 + s.rangeOutStart)]
      else acc.1 := by
  obtain ⟨ip, op, src⟩ := conn
  by_cases h : ip ∈ s.allIn ∧ op ∈ s.allOut
  · simp only [connectionStep, if_pos h]
    rcases src with _ | sel
    · simp [h]
    · by_cases h2 : ip ∈ s.myprocIn
      · simp only [if_pos h2]
        rcases hg : acc.2.get? (s.myprocIn.indexOf ip) with _ | old <;> simp [h]
      · simp [h2, h]
  · simp [connectionStep, h]

/-- Folding the loop body appends exactly the pairs of the resolvable
declared connections, in declaration order. -/
theorem foldl_connectionStep_fst (s : ConnState) (conns : List Connection) :
    ∀ acc : List (Nat × Nat) × List VarMetadata,
      (conns.foldl (connectionStep s) acc).1 =
        acc.1 ++ ((conns.filter (fun conn =>
            decide (conn.1 ∈ s.allIn ∧ conn.2.1 ∈ s.allOut))).map
          (fun conn => (s.allIn.indexOf conn.1 + s.rangeInStart,
                        s.allOut.indexOf conn.2.1 + s.rangeOutStart))) := by
  induction conns with
  | nil => intro acc; simp
  | cons conn conns ih =>
    intro acc
    simp only [List.foldl_cons, List.filter_cons]
    rw [ih]
    rw [connectionStep_fst]
    by_cases h : conn.1 ∈ s.allIn ∧ conn.2.1 ∈ s.allOut
    · simp [h]
    · simp [h]

/-- C3 counterexample: the declared connection ("a" ← "b") resolves on
neither side, yet `_setup_connections` completes without error and simply
drops the pair: there is no error branch in the loop (system.py lines
387-394 have no `else`). -/
theorem C3_connection_error_counterexample :
    (("a", "b", (none : Option (List Int))) ∈
      (⟨[("a", "b", none)], [], [], [], 0, 0, [], []⟩ : ConnState).conns ∧
     "a" ∉ (⟨[("a", "b", none)], [], [], [], 0, 0, [], []⟩ :
        ConnState).allIn) ∧
    setup_connections ⟨[("a", "b", none)], [], [], [], 0, 0, [], []⟩ =
      .ok ([], []) :=
  ⟨⟨by decide, by decide⟩, rfl⟩

/-- C3 (amended): a declared connection whose input name is not in the
global input list or whose output name is not in the global output list is
silently skipped — `_setup_connections` never raises and the resulting
pair list holds exactly the subsystem pairs followed by the pairs of the
resolvable declared connections. -/
theorem C3_unresolvable_silently_skipped (s : ConnState) :
    ∃ meta2, setup_connections s =
      .ok (s.initPairs ++
        ((s.conns.filter (fun conn =>
            decide (conn.1 ∈ s.allIn ∧ conn.2.1 ∈ s.allOut))).map
          (fun conn => (s.allIn.indexOf conn.1 + s.rangeInStart,
                        s.allOut.indexOf conn.2.1 + s.rangeOutStart))),
        meta2) := by
  refine ⟨(s.conns.foldl (connectionStep s) (s.initPairs, s.metaIn)).2, ?_⟩
  simp only [setup_connections]
  congr 1
  have h := foldl_connectionStep_fst s s.conns (s.initPairs, s.metaIn)
  exact (Prod.ext h rfl)

/-- C9 counterexample: a connection carrying source indices whose input
variable is local but whose output name resolves nowhere performs no
metadata update, although the claim's "iff the input variable is local"
predicts one. -/
theorem C9_metadata_mutation_counterexample :
    ("a" ∈ (⟨[("a", "nope", some [0])], [], ["a"], [], 0, 0, ["a"],
        [⟨[], [1], none⟩]⟩ : ConnState).myprocIn) ∧
    setup_connections
      ⟨[("a", "nope", some [0])], [], ["a"], [], 0, 0, ["a"],
        [⟨[], [1], none⟩]⟩ =
      .ok ([], [⟨[], [1], none⟩]) :=
  ⟨by decide, rfl⟩

/-- C9 (amended): during `_setup_connections`, for a declared connection
carrying an explicit source-index selection, the `indices` and `shape`
fields of the input's local metadata record are updated in place iff the
connection resolves (both names in the global lists) and the input
variable is in this process's local name list; no other record and no
other field is modified, and a connection without a source-index
selection modifies no metadata at all. -/
theorem C9_source_index_metadata_framing (s : ConnState)
    (pairs : List (Nat × Nat)) (meta : List VarMetadata)
    (ip op : String) (sel : List Int)
    (hlen : meta.length = s.myprocIn.length) :
    ((connectionStep s (pairs, meta) (ip, op, none)).2 = meta) ∧
    (¬(ip ∈ s.allIn ∧ op ∈ s.allOut) →
      (connectionStep s (pairs, meta) (ip, op, some sel)).2 = meta) ∧
    (ip ∉ s.myprocIn →
      (connectionStep s (pairs, meta) (ip, op, some sel)).2 = meta) ∧
    (ip ∈ s.allIn → op ∈ s.allOut → ip ∈ s.myprocIn →
      ((connectionStep s (pairs, meta) (ip, op, some sel)).2.get?
          (s.myprocIn.indexOf ip) =
        (meta.get? (s.myprocIn.indexOf ip)).map
          (fun old => { old with indices := some sel,
                                 shape := [sel.length] })) ∧
      (∀ j, j ≠ s.myprocIn.indexOf ip →
        (connectionStep s (pairs, meta) (ip, op, some sel)).2.get? j =
          meta.get? j)) := by
  refine ⟨?_, ?_, ?_, ?_⟩
  · by_cases h : ip ∈ s.allIn ∧ op ∈ s.allOut
    · simp [connectionStep, h]
    · simp [connectionStep, h]
  · intro h
    simp [connectionStep, h]
  · intro h2
    by_cases h : ip ∈ s.allIn ∧ op ∈ s.allOut
    · simp [connectionStep, h, h2]
    · simp [connectionStep, h]
  · intro h1 h2 h3
    have hidx : s.myprocIn.indexOf ip < s.myprocIn.length :=
      List.indexOf_lt_length.mpr h3
    have hlt : s.myprocIn.indexOf ip < meta.length := by omega
    have hget : meta.get? (s.myprocIn.indexOf ip) =
        some (meta.get ⟨s.myprocIn.indexOf ip, hlt⟩) :=
      List.get?_eq_get hlt
    constructor
    · simp only [connectionStep, if_pos (And.intro h1 h2), if_pos h3, hget]
      rw [List.get?_set_eq_of_lt _ hlt]
      rfl
    · intro j hj
      simp only [connectionStep, if_pos (And.intro h1 h2), if_pos h3, hget]
      exact List.get?_set_ne _ _ (fun h => hj h.symm)

/-- Witness for C9 (amended): a resolvable connection with source indices
[0, 2] on the locally-owned input "a" rewrites that record's `indices`
and `shape` fields and keeps its `value` field. -/
theorem C9_source_index_metadata_framing_witness :
    (connectionStep
      ⟨[], [], ["a"], ["b"], 0, 0, ["a"], [⟨[], [1], none⟩]⟩
      ([], [⟨[], [1], none⟩]) ("a", "b", some [0, 2])).2.get? 0 =
      some ⟨[], [2], some [0, 2]⟩ :=
  ((C9_source_index_metadata_framing
      ⟨[], [], ["a"], ["b"], 0, 0, ["a"], [⟨[], [1], none⟩]⟩
      [] [⟨[], [1], none⟩] "a" "b" [0, 2] (by decide)).2.2.2
    (by decide) (by decide) (by decide)).1

/-- Writing an empty data array is a no-op. -/
theorem writeAt_nil_right (a : List Rat) (idxs : List Nat) :
    writeAt a idxs [] = a := by
  cases idxs <;> rfl

/-- One step of a fancy assignment. -/
theorem writeAt_cons (a : List Rat) (i : Nat) (is : List Nat) (d : Rat)
    (ds : List Rat) :
    writeAt a (i :: is) (d :: ds) = writeAt (a.set i d) is ds := rfl

/-- `set` at a different index does not change a `getD` read. -/
theorem getD_set_ne (a : List Rat) (i q : Nat) (d : Rat) (h : i ≠ q) :
    (a.set i d).getD q 0 = a.getD q 0 := by
  rw [List.getD_eq_getElem?_getD, List.getD_eq_getElem?_getD,
    List.getElem?_set_ne h]

/-- `set` within bounds is read back by `getD`. -/
theorem getD_set_self (a : List Rat) (i : Nat) (d : Rat) (h : i < a.length) :
    (a.set i d).getD i 0 = d := by
  rw [List.getD_eq_getElem?_getD, List.getElem?_set_eq_of_lt d h]
  rfl

/-- Fancy assignment preserves the array length. -/
theorem writeAt_length (idxs : List Nat) :
    ∀ (data : List Rat) (a : List Rat),
      (writeAt a idxs data).length = a.length := by
  induction idxs with
  | nil => intro data a; rfl
  | cons i is ih =>
    intro data a
    rcases data with _ | ⟨d, ds⟩
    · rw [writeAt_nil_right]
    · rw [writeAt_cons, ih ds]
      simp

/-- A position not among the written indices keeps its value. -/
theorem getD_writeAt_not_mem (idxs : List Nat) :
    ∀ (data : List Rat) (a : List Rat) (q : Nat), q ∉ idxs →
      (writeAt a idxs data).getD q 0 = a.getD q 0 := by
  induction idxs with
  | nil => intro data a q _; rfl
  | cons i is ih =>
    intro data a q hq
    rcases data with _ | ⟨d, ds⟩
    · rw [writeAt_nil_right]
    · rw [writeAt_cons, ih ds (a.set i d) q
        (fun h => hq (List.mem_cons_of_mem _ h))]
      exact getD_set_ne a i q d
        (fun h => hq (by rw [← h]; exact List.mem_cons_self i is))

/-- Reading back exactly the positions just written recovers the data,
when the positions are distinct and in bounds. -/
theorem readAt_writeAt (idxs : List Nat) :
    ∀ (data : List Rat) (a : List Rat), idxs.Nodup →
      idxs.length = data.length → (∀ j ∈ idxs, j < a.length) →
      readAt (writeAt a idxs data) idxs = data := by
  induction idxs with
  | nil =>
    intro data a _ hlen _
    rcases data with _ | ⟨d, ds⟩
    · rfl
    · simp at hlen
  | cons i is ih =>
    intro data a hnd hlen hb
    rcases data with _ | ⟨d, ds⟩
    · simp at hlen
    · obtain ⟨hni, hnd2⟩ := List.nodup_cons.mp hnd
      rw [writeAt_cons]
      simp only [readAt, List.map_cons, List.cons.injEq]
      constructor
      · rw [getD_writeAt_not_mem is ds (a.set i d) i hni]
        exact getD_set_self a i d (hb i (List.mem_cons_self i is))
      · have := ih ds (a.set i d) hnd2 (by simpa using hlen)
          (fun j hj => by
            rw [List.length_set]
            exact hb j (List.mem_cons_of_mem _ hj))
        simpa [readAt] using this

/-- The fold of fancy assignments over varsets preserves length. -/
theorem foldl_writeAt_length (ps : List (List Rat × List Nat)) :
    ∀ a : List Rat,
      (ps.foldl (fun acc p => writeAt acc p.2 p.1) a).length = a.length := by
  induction ps with
  | nil => intro a; rfl
  | cons p ps ih =>
    intro a
    simp only [List.foldl_cons]
    rw [ih, writeAt_length]

/-- A position in no varset's index array keeps its value across the
whole fold. -/
theorem getD_foldl_not_mem (ps : List (List Rat × List Nat)) :
    ∀ (a : List Rat) (q : Nat), (∀ p ∈ ps, q ∉ p.2) →
      (ps.foldl (fun acc p => writeAt acc p.2 p.1) a).getD q 0 =
        a.getD q 0 := by
  induction ps with
  | nil => intro a q _; rfl
  | cons p ps ih =>
    intro a q hq
    simp only [List.foldl_cons]
    rw [ih _ q (fun r hr => hq r (List.mem_cons_of_mem _ hr))]
    exact getD_writeAt_not_mem p.2 p.1 a q (hq p (List.mem_cons_self p ps))

/-- Reading any varset's positions out of the full fold recovers that
varset's data, when all index arrays are globally duplicate-free. -/
theorem readAt_foldl_writeAt (ps : List (List Rat × List Nat)) :
    ∀ a : List Rat,
      (∀ p ∈ ps, p.1.length = p.2.length) →
      (∀ p ∈ ps, ∀ j ∈ p.2, j < a.length) →
      ((ps.map Prod.snd).flatten.Nodup) →
      ∀ p ∈ ps,
        readAt (ps.foldl (fun acc r => writeAt acc r.2 r.1) a) p.2 = p.1 := by
  induction ps with
  | nil => intro a _ _ _ p hp; simp at hp
  | cons r ps ih =>
    intro a hlen hb hnd p hp
    rw [List.map_cons, List.flatten_cons] at hnd
    obtain ⟨hnd_head, hnd_tail, hdisj⟩ := List.nodup_append.mp hnd
    simp only [List.foldl_cons]
    rcases List.mem_cons.mp hp with h | h
    · subst h
      have hkeep : ∀ j ∈ p.2,
          (ps.foldl (fun acc r => writeAt acc r.2 r.1)
            (writeAt a p.2 p.1)).getD j 0 = (writeAt a p.2 p.1).getD j 0 := by
        intro j hj
        refine getD_foldl_not_mem ps _ j ?_
        intro p2 hp2 hjin
        exact hdisj hj (by
          rw [List.mem_flatten]
          exact ⟨p2.2, List.mem_map_of_mem _ hp2, hjin⟩)
      calc readAt (ps.foldl (fun acc r => writeAt acc r.2 r.1)
              (writeAt a p.2 p.1)) p.2
          = readAt (writeAt a p.2 p.1) p.2 :=
            List.map_congr_left (fun j hj => hkeep j hj)
        _ = p.1 := readAt_writeAt p.2 p.1 a hnd_head
            (hlen p (List.mem_cons_self p ps)).symm
            (hb p (List.mem_cons_self p ps))
    · refine ih (writeAt a r.2 r.1)
        (fun p2 hp2 => hlen p2 (List.mem_cons_of_mem _ hp2))
        (fun p2 hp2 j hj => by
          rw [writeAt_length]
          exact hb p2 (List.mem_cons_of_mem _ hp2) j hj)
        hnd_tail p h

/-- C5 counterexample: a vector with a single varset whose index array
holds a repeated position.  The per-varset index arrays are (vacuously)
pairwise disjoint and in bounds, yet `set_data (get_data)` changes the
varset data: the repeated position keeps only the last value written. -/
theorem C5_round_trip_counterexample :
    pairwiseDisjoint (FlatVector.mk [[1, 2]] [[0, 0]]).indices ∧
    (∀ p ∈ (FlatVector.mk [[1, 2]] [[0, 0]]).data.zip
        (FlatVector.mk [[1, 2]] [[0, 0]]).indices,
      p.1.length = p.2.length) ∧
    (∀ idxs ∈ (FlatVector.mk [[1, 2]] [[0, 0]]).indices,
      ∀ j ∈ idxs, j < 2) ∧
    set_data (FlatVector.mk [[1, 2]] [[0, 0]])
        (get_data (FlatVector.mk [[1, 2]] [[0, 0]]) 2) ≠
      FlatVector.mk [[1, 2]] [[0, 0]] := by
  refine ⟨?_, by decide, by decide, by decide⟩
  simp [pairwiseDisjoint]

/-- C5 (amended): for every vector whose per-varset index arrays are
globally duplicate-free (pairwise disjoint and duplicate-free within each
array, i.e. their concatenation has no duplicates), with index arrays in
bounds and matching the varset data lengths, `set_data` applied to the
result of `get_data` leaves every varset data array — and hence every
named view into it — exactly unchanged. -/
theorem C5_round_trip (v : FlatVector) (n : Nat)
    (hlen : v.data.length = v.indices.length)
    (hpair : ∀ p ∈ v.data.zip v.indices, p.1.length = p.2.length)
    (hbound : ∀ idxs ∈ v.indices, ∀ j ∈ idxs, j < n)
    (hinj : v.indices.flatten.Nodup) :
    set_data v (get_data v n) = v := by
  have hmap_snd : (v.data.zip v.indices).map Prod.snd = v.indices :=
    List.map_snd_zip _ _ (le_of_eq hlen.symm)
  have hall := readAt_foldl_writeAt (v.data.zip v.indices)
    (List.replicate n 0) hpair
    (fun p hp j hj => by
      rw [List.length_replicate]
      obtain ⟨x, y⟩ := p
      exact hbound y (List.mem_zip hp).2 j hj)
    (by rw [hmap_snd]; exact hinj)
  unfold set_data get_data
  have hdata : (v.data.zip v.indices).map
      (fun p => readAt ((v.data.zip v.indices).foldl
        (fun a q => writeAt a q.2 q.1) (List.replicate n 0)) p.2) =
      v.data := by
    rw [List.map_congr_left (fun p hp => hall p hp)]
    exact List.map_fst_zip _ _ (le_of_eq hlen)
  rw [hdata]

/-- Witness for C5 (amended): a two-varset vector with interleaved,
duplicate-free index arrays survives the round trip unchanged. -/
theorem C5_round_trip_witness :
    set_data (FlatVector.mk [[1, 2], [3]] [[2, 0], [1]])
      (get_data (FlatVector.mk [[1, 2], [3]] [[2, 0], [1]]) 3) =
      FlatVector.mk [[1, 2], [3]] [[2, 0], [1]] :=
  C5_round_trip (FlatVector.mk [[1, 2], [3]] [[2, 0], [1]]) 3
    (by decide) (by decide) (by decide) (by decide)

/-- C6: relevance-view access.  An indexed read returns the stored view
value (unwrapped per the scalar flag) when the name is in the current
relevance set `_names`; read and write raise a not-found error exactly
when the name is outside the relevance set; a failed write leaves the
vector unchanged (and a read never mutates). -/
theorem C6_relevance_view_access (v : NamedVector) (key : String)
    (value : List Rat)
    (hsub : key ∈ v.names →
      (v.views.lookup key).isSome ∧ (v.idxs.lookup key).isSome) :
    (∀ view idx, key ∈ v.names → v.views.lookup key = some view →
      v.idxs.lookup key = some idx →
      vecGetItem v key = .ok (match idx with
        | .scalar => .scalar (view.getD 0 0)
        | .whole => .arr view)) ∧
    ((∃ e, vecGetItem v key = .error e) ↔ key ∉ v.names) ∧
    ((vecSetItem v key value).2 ≠ none ↔ key ∉ v.names) ∧
    ((vecSetItem v key value).2 ≠ none → (vecSetItem v key value).1 = v) := by
  refine ⟨?_, ⟨?_, ?_⟩, ⟨?_, ?_⟩, ?_⟩
  · intro view idx hk hv hi
    simp only [vecGetItem, if_pos hk, hv, hi]
    cases idx <;> rfl
  · rintro ⟨e, he⟩ hk
    obtain ⟨h1, h2⟩ := hsub hk
    rcases hv : v.views.lookup key with _ | view
    · rw [hv] at h1; simp at h1
    rcases hi : v.idxs.lookup key with _ | idx
    · rw [hi] at h2; simp at h2
    simp only [vecGetItem, if_pos hk, hv, hi] at he
    cases idx <;> simp at he
  · intro hk
    exact ⟨.notFound key, by simp [vecGetItem, hk]⟩
  · intro hne hk
    obtain ⟨h1, _⟩ := hsub hk
    rcases hv : v.views.lookup key with _ | view
    · rw [hv] at h1; simp at h1
    simp [vecSetItem, if_pos hk, hv] at hne
  · intro hk
    simp [vecSetItem, hk]
  · intro hne
    by_cases hk : key ∈ v.names
    · rcases hv : v.views.lookup key with _ | view
      · simp [vecSetItem, if_pos hk, hv]
      · simp [vecSetItem, if_pos hk, hv] at hne
    · simp [vecSetItem, hk]

/-- Witness for C6: reading the size-1 variable "x" inside the relevance
set returns its scalar value 3. -/
theorem C6_relevance_view_access_witness :
    vecGetItem ⟨[("x", [3])], [("x", .scalar)], ["x"]⟩ "x" =
      .ok (.scalar 3) :=
  (C6_relevance_view_access ⟨[("x", [3])], [("x", .scalar)], ["x"]⟩ "x" []
    (by decide)).1 [3] .scalar (by decide) (by decide) (by decide)

/-- C2: top-down index assignment invariant (single-process case).  After
`_setup_variable_indices` runs on a node with entry counters `c`, the
node's global range per kind is `[c, c + len(global name list))`, the
counter on exit equals the node's upper bound, and throughout the
hierarchy sibling ranges tile the parent contiguously in insertion order,
are pairwise disjoint, and union to exactly the parent's range. -/
theorem C2_index_assignment_invariant (t : VarTree) (c : Counters)
    (hwf : sizesOk t = true) :
    (setupVariableIndices t c).1.node.rangeIn =
      (c.input, c.input + t.namesIn.length) ∧
    (setupVariableIndices t c).1.node.rangeOut =
      (c.output, c.output + t.namesOut.length) ∧
    (setupVariableIndices t c).2 =
      ⟨c.input + t.namesIn.length, c.output + t.namesOut.length⟩ ∧
    GoodRanges (setupVariableIndices t c).1 :=
  ⟨(setupVariableIndices_range t c).1, (setupVariableIndices_range t c).2,
   setupVariableIndices_counters t c, setupVariableIndices_good t c hwf⟩

/-- Witness for C2: a two-child hierarchy (one child with an input, one
with an output) at entry counters (0, 0) gets ranges [0,1) per kind and
exit counters (1, 1). -/
theorem C2_index_assignment_invariant_witness :
    sizesOk (.mk ["s1.a"] ["s2.b"]
      [.mk ["a"] [] [], .mk [] ["b"] []]) = true ∧
    (setupVariableIndices (.mk ["s1.a"] ["s2.b"]
      [.mk ["a"] [] [], .mk [] ["b"] []]) ⟨0, 0⟩).1.node.rangeIn = (0, 1) := by
  have hwf : sizesOk (.mk ["s1.a"] ["s2.b"]
      [.mk ["a"] [] [], .mk [] ["b"] []]) = true := by
    rw [sizesOk_iff]
    refine ⟨fun _ => ⟨by decide, by decide⟩, ?_⟩
    intro t ht
    simp only [List.mem_cons, List.not_mem_nil, or_false] at ht
    rcases ht with h | h <;> subst h <;> exact sizesOk_leaf _ _
  exact ⟨hwf, (C2_index_assignment_invariant _ ⟨0, 0⟩ hwf).1⟩

/-- Concatenating the per-rank contributions keeps exactly the
representatives' assembled names, in rank order. -/
theorem flatten_contributions (g : DistGroup) (L : List Nat) :
    (L.map (fun r => rankContribution g r)).flatten =
      ((L.filter (fun r => g.subRank r = 0)).map
        (fun r => localNames g r)).flatten := by
  induction L with
  | nil => rfl
  | cons a L ih =>
    simp only [rankContribution] at ih ⊢
    by_cases h : g.subRank a = 0
    · simp [h, ih, List.filter_cons]
    · simp [h, ih, List.filter_cons]

/-- Concatenating ranks' local name lists is concatenating the mapped
names of their resident children, in order. -/
theorem flatten_localNames (g : DistGroup) (L : List Nat) :
    (L.map (fun r => localNames g r)).flatten =
      ((L.map g.myproc).flatten.map (childNames g.children)).flatten := by
  induction L with
  | nil => rfl
  | cons a L ih =>
    simp [localNames, ih, List.map_append, List.flatten_append,
      List.flatten_flatten, List.map_map]
    rfl

/-- Indexing every child position in order yields the children's mapped
name lists in order. -/
theorem map_childNames_range (cs : List ChildSys) :
    (List.range cs.length).map (childNames cs) = cs.map mappedNames := by
  induction cs with
  | nil => rfl
  | cons ch cs ih =>
    rw [List.length_cons, List.range_succ_eq_map, List.map_cons,
      List.map_map, List.map_cons]
    have hc : childNames (ch :: cs) ∘ Nat.succ = childNames cs :=
      funext (fun i => rfl)
    rw [hc, ih]
    rfl

/-- C4: distributed name-list consistency.  For a group whose process
group spans `P > 1` processes, after `_setup_variables` the global
(allprocs) name list per kind is identical on every rank — and under the
allocator partition guarantee it is the complete concatenation of all
children's mapped names in insertion order — even though each rank
assembled names only for its resident children. -/
theorem C4_distributed_name_consistency (g : DistGroup)
    (hpart : partitionOk g) (r1 r2 : Nat)
    (_h1 : r1 < g.P) (_h2 : r2 < g.P) :
    setupVariablesNames g r1 = setupVariablesNames g r2 ∧
    setupVariablesNames g r1 = (g.children.map mappedNames).flatten := by
  constructor
  · rfl
  · show (allgather g.P (fun q => rankContribution g q)).flatten = _
    unfold allgather
    rw [flatten_contributions g (List.range g.P),
      flatten_localNames g _, hpart, map_childNames_range]

/-- Witness for C4: two children on two ranks (one resident child each,
both ranks representatives); both ranks compute the complete list
["c1.a", "c2.b"]. -/
theorem C4_distributed_name_consistency_witness :
    setupVariablesNames
      ⟨2, [⟨"c1", ⟨[], [], []⟩, ["a"]⟩, ⟨"c2", ⟨[], [], []⟩, ["b"]⟩],
       fun r => if r = 0 then [0] else [1], fun _ => 0⟩ 0 =
      (([⟨"c1", ⟨[], [], []⟩, ["a"]⟩, ⟨"c2", ⟨[], [], []⟩, ["b"]⟩] :
          List ChildSys).map mappedNames).flatten :=
  (C4_distributed_name_consistency
    ⟨2, [⟨"c1", ⟨[], [], []⟩, ["a"]⟩, ⟨"c2", ⟨[], [], []⟩, ["b"]⟩],
     fun r => if r = 0 then [0] else [1], fun _ => 0⟩
    (by unfold partitionOk; decide) 0 1 (by decide) (by decide)).2

/-- Cramer-style solution formula really solves an invertible system. -/
theorem cramer_mulVec_solves {n : ℕ} (M : Matrix (Fin n) (Fin n) ℚ)
    (r : Fin n → ℚ) (hdet : M.det ≠ 0) :
    M.mulVec ((M.det)⁻¹ • (M.adjugate.mulVec r)) = r := by
  rw [M.mulVec_smul, Matrix.mulVec_mulVec, Matrix.mul_adjugate,
    Matrix.smul_mulVec_assoc, Matrix.one_mulVec, smul_smul,
    inv_mul_cancel₀ hdet, one_smul]

/-- C7: adjoint consistency of the matrix-free operator.  For every
matrix, state and seeds, the inner product of the forward-mode result
`dResidual = A·dx + dA·x − db` with a residual seed `w` equals the sum of
the inner products of the seeds with the reverse-mode results
`(Aᵗ·w, outer(x, w)ᵗ, −w)`, exactly over exact arithmetic. -/
theorem C7_adjoint_consistency {n : ℕ}
    (A dA : Matrix (Fin n) (Fin n) ℚ) (x dx db w : Fin n → ℚ) :
    dotProduct ((mat_vec_prod ⟨A, x, dA, db, dx, 0, true, true, true⟩
        .fwd).dr) w =
      dotProduct dx
        ((mat_vec_prod ⟨A, x, 0, 0, 0, w, true, true, true⟩ .rev).dx) +
      (∑ i, ∑ j, dA i j *
        ((mat_vec_prod ⟨A, x, 0, 0, 0, w, true, true, true⟩ .rev).dA i j)) +
      dotProduct db
        ((mat_vec_prod ⟨A, x, 0, 0, 0, w, true, true, true⟩ .rev).db) := by
  have hfwd : (mat_vec_prod ⟨A, x, dA, db, dx, 0, true, true, true⟩
      .fwd).dr = A.mulVec dx + dA.mulVec x - db := by
    simp [mat_vec_prod]
  have hdx : (mat_vec_prod ⟨A, x, 0, 0, 0, w, true, true, true⟩ .rev).dx =
      Aᵀ.mulVec w := by
    simp [mat_vec_prod]
  have hdA : (mat_vec_prod ⟨A, x, 0, 0, 0, w, true, true, true⟩ .rev).dA =
      (Matrix.vecMulVec x w)ᵀ := by
    simp [mat_vec_prod]
  have hdb : (mat_vec_prod ⟨A, x, 0, 0, 0, w, true, true, true⟩ .rev).db =
      -w := by
    simp [mat_vec_prod]
  rw [hfwd, hdx, hdA, hdb]
  have e1 : dotProduct (A.mulVec dx) w = dotProduct dx (Aᵀ.mulVec w) := by
    rw [Matrix.dotProduct_comm, Matrix.dotProduct_mulVec,
      Matrix.mulVec_transpose, Matrix.dotProduct_comm]
  have e2 : dotProduct (dA.mulVec x) w =
      ∑ i, ∑ j, dA i j * ((Matrix.vecMulVec x w)ᵀ i j) := by
    simp only [Matrix.dotProduct, Matrix.mulVec, Matrix.transpose_apply,
      Matrix.vecMulVec_apply]
    refine Finset.sum_congr rfl (fun i _ => ?_)
    rw [Finset.sum_mul]
    exact Finset.sum_congr rfl (fun j _ => by ring)
  have e3 : dotProduct db (-w) = -dotProduct db w := Matrix.dotProduct_neg db w
  rw [Matrix.sub_dotProduct, Matrix.add_dotProduct, e1, e2, e3]
  ring

/-- C8: `solve_linear` back-substitution.  With the factorization cached
by a prior `solve_nonlinear` on an invertible `A`, forward mode sets
`d_outputs['x']` to the solution of `A·Δx = d_residuals['x']` and reverse
mode sets `d_residuals['x']` to the solution of `Aᵀ·Δx = d_outputs['x']`;
the transposed solve is chosen purely by the mode flag, the other vector
is untouched, and the component state (in particular the cached
factorization) is unchanged — no refactorization. -/
theorem C8_solve_linear_back_substitution {n : ℕ}
    (A : Matrix (Fin n) (Fin n) ℚ) (b0 x0 : Fin n → ℚ) (d : LinearData n)
    (hdet : A.det ≠ 0) :
    (∀ c2 d2,
      solve_linear (solve_nonlinear ⟨A, b0, x0, none⟩) d .fwd =
        some (c2, d2) →
      A.mulVec d2.d_outputs = d.d_residuals ∧
      d2.d_residuals = d.d_residuals ∧
      c2 = solve_nonlinear ⟨A, b0, x0, none⟩) ∧
    (∀ c2 d2,
      solve_linear (solve_nonlinear ⟨A, b0, x0, none⟩) d .rev =
        some (c2, d2) →
      Aᵀ.mulVec d2.d_residuals = d.d_outputs ∧
      d2.d_outputs = d.d_outputs ∧
      c2 = solve_nonlinear ⟨A, b0, x0, none⟩) := by
  constructor
  · intro c2 d2 h
    simp only [solve_linear, solve_nonlinear, lu_factor,
      Option.some.injEq, Prod.mk.injEq] at h
    obtain ⟨hc, hd⟩ := h
    refine ⟨?_, ?_, ?_⟩
    · rw [← hd]
      simpa [lu_solve] using cramer_mulVec_solves A d.d_residuals hdet
    · rw [← hd]
    · rw [← hc]
      simp [solve_nonlinear, lu_factor]
  · intro c2 d2 h
    simp only [solve_linear, solve_nonlinear, lu_factor,
      Option.some.injEq, Prod.mk.injEq] at h
    obtain ⟨hc, hd⟩ := h
    have hdetT : (Aᵀ).det ≠ 0 := by
      rw [Matrix.det_transpose]
      exact hdet
    refine ⟨?_, ?_, ?_⟩
    · rw [← hd]
      simpa [lu_solve] using cramer_mulVec_solves Aᵀ d.d_outputs hdetT
    · rw [← hd]
    · rw [← hc]
      simp [solve_nonlinear, lu_factor]

/-- Witness for C8: for `A = identity` of size 3 with the factorization
cached by `solve_nonlinear`, the reverse-mode solve with rhs `[1, 0, 0]`
yields `Δx = [1, 0, 0]`. -/
theorem C8_solve_linear_back_substitution_witness :
    Matrix.det (1 : Matrix (Fin 3) (Fin 3) ℚ) ≠ 0 ∧
    (solve_linear (solve_nonlinear ⟨1, ![1, 2, 3], ![2, 2, 2], none⟩)
        ⟨![1, 0, 0], ![0, 0, 0]⟩ .rev).map (fun p => p.2.d_residuals) =
      some ![1, 0, 0] := by
  have hdet : Matrix.det (1 : Matrix (Fin 3) (Fin 3) ℚ) ≠ 0 := by simp
  refine ⟨hdet, ?_⟩
  have h := (C8_solve_linear_back_substitution (1 : Matrix (Fin 3) (Fin 3) ℚ)
    ![1, 2, 3] ![2, 2, 2] ⟨![1, 0, 0], ![0, 0, 0]⟩ hdet).2
  rcases hsl : solve_linear (solve_nonlinear ⟨1, ![1, 2, 3], ![2, 2, 2], none⟩)
      ⟨![1, 0, 0], ![0, 0, 0]⟩ .rev with _ | p
  · exfalso
    simp [solve_linear, solve_nonlinear] at hsl
  · obtain ⟨h1, _, _⟩ := h p.1 p.2 (by rw [hsl])
    have hres : p.2.d_residuals = ![1, 0, 0] := by
      rwa [Matrix.transpose_one, Matrix.one_mulVec] at h1
    simp [hres]

/-- Witness for C10: "a" is listed only in the per-kind promotion set while
the 'any' set holds the unrelated name "z"; "a" is left unpromoted and gets
the child prefix "s.". -/
theorem C10_perkind_promotes_ignored_witness :
    mapName "s" ⟨["z"], ["a"], []⟩ "a" =
      match ([] : List (String × String)).lookup "a" with
      | some tgt => tgt
      | none => if "s" ≠ "" then "s" ++ "." ++ "a" else "a" :=
  C10_perkind_promotes_ignored "s" ⟨["z"], ["a"], []⟩ "a"
    (by decide) (by decide) (by decide) (by decide)

end Blue
